import Mathlib

/-!
Verification of the URL-shortening backend (src/backend/main.py).

The Python source is shallowly embedded below:
  - the base-62 encoder (BASE62, base62_encode) mirrors the pure function
    base62_encode of main.py;
  - the durable store (DB), the redis cache (an association list) and the
    deferred analytics queue are explicit state, threaded through the
    endpoint functions shorten_url, redirect_to_url and record_analytics;
  - redis calls can raise; the code has no try/except around them, so the
    embedding propagates a cache failure as an error result, exactly as an
    uncaught exception would surface from the endpoint.
-/

/-- Alphabet of the encoder: string.digits + string.ascii_letters, that is
digits, then the lowercase letters, then the uppercase letters. -/
def BASE62 : List Char :=
  "0123456789abcdefghijklmnopqrstuvwxyzABCDEFGHIJKLMNOPQRSTUVWXYZ".data

/-- The while-loop of base62_encode: while num: num, rem = divmod(num, 62);
arr.append(BASE62[rem]). Remainders are appended least-significant first. -/
def base62_loop (num : Nat) (arr : List Char) : List Char :=
  if h : num = 0 then arr
  else base62_loop (num / 62) (arr ++ [BASE62.get! (num % 62)])
termination_by num
decreasing_by exact Nat.div_lt_self (Nat.pos_of_ne_zero h) (by norm_num)

/-- base62_encode of main.py: the zero shortcut, then the loop, then
arr.reverse() and join. -/
def base62_encode (num : Nat) : String :=
  if num = 0 then String.mk [BASE62.get! 0]
  else String.mk (base62_loop num []).reverse

/-- Value of a least-significant-first digit string, used to state that the
encoder emits the base-62 positional representation. -/
def base62_valLE : List Char → Nat
  | [] => 0
  | c :: cs => BASE62.indexOf c + 62 * base62_valLE cs

/-- Decoder (verification artifact, not in the source): reads a code
most-significant symbol first. -/
def base62_decode (s : String) : Nat :=
  s.data.foldl (fun a c => a * 62 + BASE62.indexOf c) 0

theorem BASE62_length : BASE62.length = 62 := by decide

theorem BASE62_indexOf_get :
    ∀ i : Fin 62, BASE62.indexOf (BASE62.get! i.val) = i.val := by decide

theorem BASE62_get_mem : ∀ i : Fin 62, BASE62.get! i.val ∈ BASE62 := by decide

theorem base62_loop_zero (arr : List Char) : base62_loop 0 arr = arr := by
  rw [base62_loop]
  simp

theorem base62_loop_ne_zero (num : Nat) (arr : List Char) (h : num ≠ 0) :
    base62_loop num arr = base62_loop (num / 62) (arr ++ [BASE62.get! (num % 62)]) := by
  rw [base62_loop]
  simp [h]

theorem base62_loop_acc (num : Nat) :
    ∀ arr : List Char, base62_loop num arr = arr ++ base62_loop num [] := by
  induction num using Nat.strong_induction_on with
  | _ n ih =>
    intro arr
    by_cases h : n = 0
    · subst h; simp [base62_loop_zero]
    · rw [base62_loop_ne_zero n arr h, base62_loop_ne_zero n [] h]
      simp only [List.nil_append]
      rw [ih (n / 62) (Nat.div_lt_self (Nat.pos_of_ne_zero h) (by norm_num))
          (arr ++ [BASE62.get! (n % 62)]),
        ih (n / 62) (Nat.div_lt_self (Nat.pos_of_ne_zero h) (by norm_num))
          ([BASE62.get! (n % 62)])]
      simp

theorem base62_loop_cons (num : Nat) (h : num ≠ 0) :
    base62_loop num [] = BASE62.get! (num % 62) :: base62_loop (num / 62) [] := by
  rw [base62_loop_ne_zero num [] h, base62_loop_acc (num / 62)]
  simp

theorem base62_valLE_loop (num : Nat) : base62_valLE (base62_loop num []) = num := by
  induction num using Nat.strong_induction_on with
  | _ n ih =>
    by_cases h : n = 0
    · subst h; simp [base62_loop_zero, base62_valLE]
    · rw [base62_loop_cons n h]
      have hlt : n % 62 < 62 := Nat.mod_lt _ (by norm_num)
      rw [base62_valLE, BASE62_indexOf_get ⟨n % 62, hlt⟩,
        ih (n / 62) (Nat.div_lt_self (Nat.pos_of_ne_zero h) (by norm_num))]
      exact Nat.mod_add_div n 62

theorem base62_foldl_reverse (l : List Char) (a : Nat) :
    l.reverse.foldl (fun a c => a * 62 + BASE62.indexOf c) a
      = a * 62 ^ l.length + base62_valLE l := by
  induction l generalizing a with
  | nil => simp [base62_valLE]
  | cons c cs ih =>
    simp only [List.reverse_cons, List.foldl_append, List.foldl_cons, List.foldl_nil,
      ih, base62_valLE, List.length_cons]
    ring

/-- The decoder recovers the input: the code is the base-62 positional
representation of the encoded number. -/
theorem base62_decode_encode (n : Nat) : base62_decode (base62_encode n) = n := by
  by_cases h : n = 0
  · subst h; simp [base62_encode, base62_decode]; decide
  · simp only [base62_encode, if_neg h, base62_decode]
    rw [base62_foldl_reverse, base62_valLE_loop]
    simp

theorem base62_encode_ne_of_ne (m n : Nat) (h : m ≠ n) :
    base62_encode m ≠ base62_encode n := by
  intro heq
  exact h (by rw [← base62_decode_encode m, ← base62_decode_encode n, heq])

theorem base62_loop_mem (num : Nat) :
    ∀ c ∈ base62_loop num [], c ∈ BASE62 := by
  induction num using Nat.strong_induction_on with
  | _ n ih =>
    by_cases h : n = 0
    · subst h; simp [base62_loop_zero]
    · rw [base62_loop_cons n h]
      intro c hc
      rcases List.mem_cons.mp hc with hc | hc
      · subst hc
        exact BASE62_get_mem ⟨n % 62, Nat.mod_lt _ (by norm_num)⟩
      · exact ih (n / 62) (Nat.div_lt_self (Nat.pos_of_ne_zero h) (by norm_num)) c hc

theorem base62_encode_mem (n : Nat) : ∀ c ∈ (base62_encode n).data, c ∈ BASE62 := by
  by_cases h : n = 0
  · subst h; intro c hc; simp [base62_encode] at hc; subst hc; decide
  · simp only [base62_encode, if_neg h]
    intro c hc
    exact base62_loop_mem n c (List.mem_reverse.mp hc)

theorem BASE62_get_inj (i j : Fin 62) (h : BASE62.get! i.val = BASE62.get! j.val) :
    i.val = j.val := by
  have hi := BASE62_indexOf_get i
  have hj := BASE62_indexOf_get j
  rw [← hi, ← hj, h]

theorem base62_loop_ne_nil (n : Nat) (h : n ≠ 0) : base62_loop n [] ≠ [] := by
  rw [base62_loop_cons n h]
  simp

theorem base62_loop_head_reverse (n : Nat) (h : n ≠ 0) :
    (base62_loop n []).reverse.head? ≠ some (BASE62.get! 0) := by
  induction n using Nat.strong_induction_on with
  | _ n ih =>
    rw [base62_loop_cons n h, List.reverse_cons]
    by_cases hq : n / 62 = 0
    · have hlt : n < 62 := by omega
      rw [hq, base62_loop_zero]
      simp only [List.reverse_nil, List.nil_append, List.head?_cons]
      intro hc
      have := BASE62_get_inj ⟨n % 62, Nat.mod_lt _ (by norm_num)⟩ ⟨0, by norm_num⟩
        (Option.some.inj hc)
      simp only [Nat.mod_eq_of_lt hlt] at this
      exact h this
    · have hne : (base62_loop (n / 62) []).reverse ≠ [] := by
        simp [base62_loop_ne_nil (n / 62) hq]
      rw [List.head?_append_of_ne_nil _ hne]
      exact ih (n / 62) (Nat.div_lt_self (Nat.pos_of_ne_zero h) (by norm_num)) hq

theorem base62_loop_length_bound (n : Nat) :
    n < 62 ^ (base62_loop n []).length := by
  induction n using Nat.strong_induction_on with
  | _ n ih =>
    by_cases h : n = 0
    · subst h; simp [base62_loop_zero]
    · rw [base62_loop_cons n h]
      simp only [List.length_cons]
      have hrec := ih (n / 62) (Nat.div_lt_self (Nat.pos_of_ne_zero h) (by norm_num))
      have h1 : n / 62 + 1 ≤ 62 ^ (base62_loop (n / 62) []).length := hrec
      have h2 : n < 62 * (n / 62 + 1) := by omega
      calc n < 62 * (n / 62 + 1) := h2
        _ ≤ 62 * 62 ^ (base62_loop (n / 62) []).length := by
              exact Nat.mul_le_mul_left 62 h1
        _ = 62 ^ ((base62_loop (n / 62) []).length + 1) := by ring

/-- One fuel unit per iteration of the while-loop: used to state that the
loop terminates for every non-negative input. -/
def base62_loopFuel : Nat → Nat → List Char → Option (List Char)
  | 0, num, arr => if num = 0 then some arr else none
  | fuel + 1, num, arr =>
    if num = 0 then some arr
    else base62_loopFuel fuel (num / 62) (arr ++ [BASE62.get! (num % 62)])

theorem base62_loopFuel_eq (fuel : Nat) :
    ∀ num arr, num ≤ fuel → base62_loopFuel fuel num arr = some (base62_loop num arr) := by
  induction fuel with
  | zero =>
    intro num arr hle
    have : num = 0 := Nat.le_zero.mp hle
    subst this
    simp [base62_loopFuel, base62_loop_zero]
  | succ fuel ih =>
    intro num arr hle
    by_cases h : num = 0
    · subst h; simp [base62_loopFuel, base62_loop_zero]
    · rw [base62_loop_ne_zero num arr h]
      simp only [base62_loopFuel, if_neg h]
      exact ih (num / 62) _ (by
        have := Nat.div_lt_self (Nat.pos_of_ne_zero h) (show 1 < 62 by norm_num)
        omega)

/-- C5: the encoder uses the fixed 62-symbol alphabet (digits, lowercase,
uppercase); encode 0 is the single symbol at index 0; a positive input below
62 encodes to its own single symbol; for n at least 62 the code is the code
of n / 62 followed by the symbol of n % 62 (remainders most-significant
first); the decoder recovers n (base-62 positional representation); no
leading-zero symbol; every output symbol is in the alphabet. -/
theorem base62_encode_correct :
    base62_encode 0 = String.mk [BASE62.get! 0]
    ∧ (∀ n, ∀ c ∈ (base62_encode n).data, c ∈ BASE62)
    ∧ (∀ n, 0 < n → n < 62 → base62_encode n = String.mk [BASE62.get! n])
    ∧ (∀ n, 62 ≤ n →
        (base62_encode n).data = (base62_encode (n / 62)).data ++ [BASE62.get! (n % 62)])
    ∧ (∀ n, 0 < n → base62_decode (base62_encode n) = n
        ∧ (base62_encode n).data.head? ≠ some (BASE62.get! 0)) := by
  refine ⟨by simp [base62_encode], base62_encode_mem, ?_, ?_, ?_⟩
  · intro n h0 hlt
    have hne : n ≠ 0 := Nat.pos_iff_ne_zero.mp h0
    have hq : n / 62 = 0 := Nat.div_eq_of_lt hlt
    simp only [base62_encode, if_neg hne]
    rw [base62_loop_cons n hne, hq, base62_loop_zero]
    simp [Nat.mod_eq_of_lt hlt]
  · intro n hge
    have hne : n ≠ 0 := by omega
    have hqne : n / 62 ≠ 0 := by
      have : 1 ≤ n / 62 := (Nat.one_le_div_iff (by norm_num)).mpr hge
      omega
    simp only [base62_encode, if_neg hne, if_neg hqne]
    rw [base62_loop_cons n hne, List.reverse_cons]
  · intro n h0
    have hne : n ≠ 0 := Nat.pos_iff_ne_zero.mp h0
    refine ⟨base62_decode_encode n, ?_⟩
    simp only [base62_encode, if_neg hne]
    exact base62_loop_head_reverse n hne

/-- C5 witness: the characterization evaluated at concrete inputs. -/
theorem base62_encode_correct_witness :
    base62_encode 5 = String.mk [BASE62.get! 5]
    ∧ (base62_encode 100).data = (base62_encode 1).data ++ [BASE62.get! 38]
    ∧ base62_decode (base62_encode 100) = 100 := by
  obtain ⟨-, -, h1, h2, h3⟩ := base62_encode_correct
  refine ⟨h1 5 (by norm_num) (by norm_num), ?_, (h3 100 (by norm_num)).1⟩
  have := h2 100 (by norm_num)
  simpa using this

/-- C8: the encoder is injective on all non-negative integers, hence no two
distinct issued identifiers produce the same short code. -/
theorem base62_encode_injective (m n : Nat) (h : m ≠ n) :
    base62_encode m ≠ base62_encode n :=
  base62_encode_ne_of_ne m n h

/-- C8 witness: two concrete distinct inputs. -/
theorem base62_encode_injective_witness :
    base62_encode 0 ≠ base62_encode 1 :=
  base62_encode_injective 0 1 (by norm_num)

/-- C9: the encoder is total: each loop iteration strictly decreases num, and
the fuel-indexed loop (one unit per iteration) returns a result within num
iterations for every non-negative input, agreeing with the loop. -/
theorem base62_encode_total :
    (∀ num : Nat, num ≠ 0 → num / 62 < num)
    ∧ (∀ num arr, base62_loopFuel num num arr = some (base62_loop num arr)) := by
  refine ⟨fun num h => Nat.div_lt_self (Nat.pos_of_ne_zero h) (by norm_num), ?_⟩
  intro num arr
  exact base62_loopFuel_eq num num arr (Nat.le_refl num)

/-- C9 witness: the decrease and the fuel bound at concrete inputs. -/
theorem base62_encode_total_witness :
    10001 / 62 < 10001 ∧ base62_loopFuel 3 3 [] = some (base62_loop 3 []) :=
  ⟨base62_encode_total.1 10001 (by norm_num), base62_encode_total.2 3 []⟩

/-- Row of the urls table (class URLItem of main.py). short_code is an
Option: it is NULL between the first commit and the second commit of
shorten_url. -/
structure URLItem where
  id : Nat
  original_url : String
  short_code : Option String
  clicks : Nat
deriving DecidableEq

/-- Row of the analytics table (class AnalyticsItem of main.py). -/
structure AnalyticsItem where
  short_code : String
  country : String
deriving DecidableEq

/-- The relational database: both tables plus the autoincrement counter of
the urls table (sqlite and postgres start it at 1). -/
structure DB where
  urls : List URLItem
  analytics : List AnalyticsItem
  nextId : Nat
deriving DecidableEq

/-- Whole-system state: database, redis contents as an association list
(TTL not modelled: an entry may be dropped at any time by an eviction step),
and the queue of BackgroundTasks not yet executed. -/
structure Sys where
  db : DB
  cache : List (String × String)
  pending : List (String × String)
deriving DecidableEq

/-- The empty initial state: empty tables, autoincrement at 1. -/
def sys0 : Sys :=
  { db := { urls := [], analytics := [], nextId := 1 }, cache := [], pending := [] }

/-- Whether redis is reachable. The source wraps no redis call in
try/except, so when redis is down the raised exception escapes the
endpoint. -/
inductive CacheMode
  | healthy
  | down
deriving DecidableEq

/-- r_cache.get: returns the stored value, none when the key is absent, and
raises (error) when redis is down. -/
def cacheGet (cm : CacheMode) (cache : List (String × String)) (k : String) :
    Except Unit (Option String) :=
  match cm with
  | .down => .error ()
  | .healthy => .ok ((cache.find? (fun p => p.1 == k)).map (·.2))

/-- r_cache.set with expiry: overwrites any entry for the key; raises when
redis is down. -/
def cacheSet (cm : CacheMode) (cache : List (String × String)) (k v : String) :
    Except Unit (List (String × String)) :=
  match cm with
  | .down => .error ()
  | .healthy => .ok ((k, v) :: cache.filter (fun p => !(p.1 == k)))

/-- Step 1 of shorten_url: db.add(URLItem(original_url=...)); db.commit();
db.refresh. The new row gets the next autoincrement id and clicks = 0;
short_code is not set yet. -/
def createPending (db : DB) (url : String) : Nat × DB :=
  (db.nextId,
   { db with
     urls := db.urls ++ [{ id := db.nextId, original_url := url,
                           short_code := none, clicks := 0 }],
     nextId := db.nextId + 1 })

/-- Step 3 of shorten_url: db_obj.short_code = short_code; db.commit(). -/
def attachCode (db : DB) (id : Nat) (code : String) : DB :=
  { db with
    urls := db.urls.map fun r =>
      if r.id = id then { r with short_code := some code } else r }

inductive ShortenErr
  | cacheError
deriving DecidableEq

/-- POST /shorten of main.py: create the row, encode id + 10000, attach the
code, then r_cache.set. There is no input validation; a redis failure at the
final set escapes after both commits, so the row persists but the request
errors. -/
def shorten_url (cm : CacheMode) (s : Sys) (url : String) :
    Except ShortenErr String × Sys :=
  let created := createPending s.db url
  let short_code := base62_encode (created.1 + 10000)
  let db2 := attachCode created.2 created.1 short_code
  match cacheSet cm s.cache short_code url with
  | .error _ => (.error .cacheError, { s with db := db2 })
  | .ok cache2 => (.ok short_code, { s with db := db2, cache := cache2 })

inductive ResolveErr
  | linkNotFound
  | cacheError
deriving DecidableEq

/-- Python truthiness of the value redis returned: None and the empty
string are falsy. -/
def truthy : Option String → Bool
  | none => false
  | some u => !(u == "")

/-- GET /\x7bshort_code\x7d of main.py: redis check first; on a truthy hit the
cached value is the target; otherwise the db is queried, a missing row is a
404 raised before any side effect, and a found row warms the cache. In both
success paths record_analytics is scheduled on BackgroundTasks. A redis
exception (get at line 145 or set at line 155) escapes uncaught. -/
def redirect_to_url (cm : CacheMode) (s : Sys) (short_code country : String) :
    Except ResolveErr String × Sys :=
  match cacheGet cm s.cache short_code with
  | .error _ => (.error .cacheError, s)
  | .ok cached =>
    if truthy cached then
      (.ok (cached.getD ""),
       { s with pending := s.pending ++ [(short_code, country)] })
    else
      match s.db.urls.find? (fun r => r.short_code == some short_code) with
      | none => (.error .linkNotFound, s)
      | some url_item =>
        match cacheSet cm s.cache short_code url_item.original_url with
        | .error _ => (.error .cacheError, s)
        | .ok cache2 =>
          (.ok url_item.original_url,
           { s with cache := cache2,
                    pending := s.pending ++ [(short_code, country)] })

/-- The ORM read inside record_analytics: the clicks value of the first row
matching the code, as loaded by query(...).first(). -/
def analyticsRead (db : DB) (short_code : String) : Option Nat :=
  (db.urls.find? (fun r => r.short_code == some short_code)).map (·.clicks)

/-- The commit inside record_analytics: writes back the clicks value that
was read plus one (url_item.clicks += 1 on the loaded object), and inserts
the AnalyticsItem row. The read and the write are separate steps, which is
exactly the application-level read-then-write of the source. -/
def analyticsWrite (db : DB) (short_code : String) (readClicks : Option Nat)
    (country : String) : DB :=
  { db with
    urls := match readClicks with
      | none => db.urls
      | some c => db.urls.map fun r =>
          if r.short_code == some short_code then { r with clicks := c + 1 } else r,
    analytics := db.analytics ++ [{ short_code := short_code, country := country }] }

/-- record_analytics of main.py, run as one uninterrupted unit: read then
write. -/
def record_analytics (db : DB) (short_code country : String) : DB :=
  analyticsWrite db short_code (analyticsRead db short_code) country

/-- Database invariant maintained by the service: the autoincrement is at
least 1, ids are positive, below the autoincrement and pairwise distinct,
and every assigned short_code is the encoding of id + 10000. -/
def dbInv (db : DB) : Prop :=
  1 ≤ db.nextId
  ∧ (∀ r ∈ db.urls, 1 ≤ r.id ∧ r.id < db.nextId)
  ∧ (db.urls.map (·.id)).Nodup
  ∧ (∀ r ∈ db.urls, ∀ c, r.short_code = some c → c = base62_encode (r.id + 10000))

theorem shorten_db (cm : CacheMode) (s : Sys) (u : String) :
    (shorten_url cm s u).2.db
      = attachCode (createPending s.db u).2 s.db.nextId
          (base62_encode (s.db.nextId + 10000)) := by
  cases cm <;> simp [shorten_url, cacheSet, createPending]

theorem attach_create_urls (db : DB) (u : String)
    (hlt : ∀ r ∈ db.urls, r.id < db.nextId) :
    (attachCode (createPending db u).2 db.nextId
        (base62_encode (db.nextId + 10000))).urls
      = db.urls ++ [{ id := db.nextId, original_url := u,
                      short_code := some (base62_encode (db.nextId + 10000)),
                      clicks := 0 }] := by
  simp only [attachCode, createPending, List.map_append]
  congr 1
  · calc db.urls.map (fun r =>
          if r.id = db.nextId
          then { r with short_code := some (base62_encode (db.nextId + 10000)) } else r)
        = db.urls.map id := by
          apply List.map_congr_left
          intro r hr
          have := hlt r hr
          simp [Nat.ne_of_lt this]
      _ = db.urls := List.map_id db.urls
  · simp

theorem dbInv_attach_create (db : DB) (u : String) (h : dbInv db) :
    dbInv (attachCode (createPending db u).2 db.nextId
        (base62_encode (db.nextId + 10000))) := by
  obtain ⟨h1, h2, h3, h4⟩ := h
  have hurls := attach_create_urls db u (fun r hr => (h2 r hr).2)
  have hnext : (attachCode (createPending db u).2 db.nextId
      (base62_encode (db.nextId + 10000))).nextId = db.nextId + 1 := by
    simp [attachCode, createPending]
  refine ⟨by omega, ?_, ?_, ?_⟩
  · intro r hr
    rw [hurls] at hr
    rw [hnext]
    rcases List.mem_append.mp hr with hr | hr
    · have := h2 r hr; omega
    · simp at hr; subst hr; simp; omega
  · rw [hurls, List.map_append]
    refine List.nodup_append.mpr ⟨h3, by simp, ?_⟩
    intro a ha hb
    simp only [List.mem_map] at ha
    obtain ⟨r, hr, hid⟩ := ha
    simp at hb
    have := (h2 r hr).2
    omega
  · intro r hr c hc
    rw [hurls] at hr
    rcases List.mem_append.mp hr with hr | hr
    · exact h4 r hr c hc
    · simp at hr; subst hr
      simp at hc
      simp [← hc]

theorem record_analytics_urls_fields (db : DB) (code country : String) :
    ∀ r2 ∈ (record_analytics db code country).urls,
      ∃ r ∈ db.urls, r2.id = r.id ∧ r2.short_code = r.short_code := by
  intro r2 hr2
  simp only [record_analytics, analyticsWrite] at hr2
  cases hv : analyticsRead db code with
  | none => rw [hv] at hr2; exact ⟨r2, hr2, rfl, rfl⟩
  | some c =>
    rw [hv] at hr2
    simp only [List.mem_map] at hr2
    obtain ⟨r, hr, heq⟩ := hr2
    refine ⟨r, hr, ?_⟩
    subst heq
    by_cases hc : r.short_code = some code
    · simp [hc]
    · simp [hc]

theorem record_analytics_map_id (db : DB) (code country : String) :
    (record_analytics db code country).urls.map (·.id) = db.urls.map (·.id) := by
  simp only [record_analytics, analyticsWrite]
  cases hv : analyticsRead db code with
  | none => rfl
  | some c =>
    simp only [List.map_map]
    apply List.map_congr_left
    intro r hr
    by_cases hc : r.short_code = some code
    · simp [hc]
    · simp [hc]

theorem record_analytics_nextId (db : DB) (code country : String) :
    (record_analytics db code country).nextId = db.nextId := rfl

theorem dbInv_record (db : DB) (code country : String) (h : dbInv db) :
    dbInv (record_analytics db code country) := by
  obtain ⟨h1, h2, h3, h4⟩ := h
  refine ⟨by rw [record_analytics_nextId]; exact h1, ?_, ?_, ?_⟩
  · intro r2 hr2
    obtain ⟨r, hr, hid, -⟩ := record_analytics_urls_fields db code country r2 hr2
    rw [record_analytics_nextId, hid]
    exact h2 r hr
  · rw [record_analytics_map_id]
    exact h3
  · intro r2 hr2 c hc
    obtain ⟨r, hr, hid, hcode⟩ := record_analytics_urls_fields db code country r2 hr2
    rw [hid]
    exact h4 r hr c (by rw [← hcode]; exact hc)

theorem redirect_db (cm : CacheMode) (s : Sys) (code country : String) :
    (redirect_to_url cm s code country).2.db = s.db := by
  unfold redirect_to_url
  cases cm
  · simp only [cacheGet]
    split
    · rfl
    · split
      · rfl
      · simp only [cacheSet]
  · rfl

/-- States reachable from the empty database by the endpoints of main.py:
shorten and resolve requests (with redis healthy or down), deferred
execution of one scheduled record_analytics task, and cache eviction (TTL
expiry). -/
inductive Reachable : Sys → Prop
  | init : Reachable sys0
  | shorten (cm : CacheMode) (u : String) {s : Sys} :
      Reachable s → Reachable (shorten_url cm s u).2
  | resolve (cm : CacheMode) (code country : String) {s : Sys} :
      Reachable s → Reachable (redirect_to_url cm s code country).2
  | analytics (code country : String) {s : Sys} :
      Reachable s → (code, country) ∈ s.pending →
      Reachable { s with db := record_analytics s.db code country,
                         pending := s.pending.erase (code, country) }
  | evict (k : String) {s : Sys} :
      Reachable s → Reachable { s with cache := s.cache.filter fun p => !(p.1 == k) }

theorem dbInv_sys0 : dbInv sys0.db := by
  refine ⟨?_, ?_, ?_, ?_⟩ <;> simp [sys0]

theorem dbInv_reachable (s : Sys) (h : Reachable s) : dbInv s.db := by
  induction h with
  | init => exact dbInv_sys0
  | shorten cm u hs ih =>
    rw [shorten_db]
    exact dbInv_attach_create _ u ih
  | resolve cm code country hs ih =>
    rw [redirect_db]
    exact ih
  | analytics code country hs hmem ih =>
    exact dbInv_record _ code country ih
  | evict k hs ih =>
    exact ih

/-- C6: in every reachable state every ShortLink with an assigned short_code
satisfies short_code = base62_encode (id + 10000); no two rows share an
assigned code; and creation is two-phase: createPending inserts the row with
short_code unset, so a code is only attached after the id exists. -/
theorem shortlink_code_invariant (s : Sys) (h : Reachable s) :
    (∀ r ∈ s.db.urls, ∀ c, r.short_code = some c → c = base62_encode (r.id + 10000))
    ∧ (∀ r ∈ s.db.urls, ∀ r2 ∈ s.db.urls, ∀ c, r.short_code = some c →
        r2.short_code = some c → r = r2)
    ∧ (∀ db u, (createPending db u).2.urls.getLast?
        = some { id := (createPending db u).1, original_url := u,
                 short_code := none, clicks := 0 }) := by
  obtain ⟨h1, h2, h3, h4⟩ := dbInv_reachable s h
  refine ⟨h4, ?_, ?_⟩
  · intro r hr r2 hr2 c hc hc2
    have e1 := h4 r hr c hc
    have e2 := h4 r2 hr2 c hc2
    have hid : r.id = r2.id := by
      by_contra hne
      exact base62_encode_ne_of_ne (r.id + 10000) (r2.id + 10000) (by omega)
        (by rw [← e1, ← e2])
    exact List.inj_on_of_nodup_map h3 hr hr2 hid
  · intro db u
    simp [createPending, List.getLast?_concat]

/-- C6 witness: the two-phase creation fact applied to the initial state. -/
theorem shortlink_code_invariant_witness :
    (createPending sys0.db "https://example.com/a").2.urls.getLast?
      = some { id := (createPending sys0.db "https://example.com/a").1,
               original_url := "https://example.com/a",
               short_code := none, clicks := 0 } :=
  (shortlink_code_invariant sys0 Reachable.init).2.2 sys0.db "https://example.com/a"

/-- C7: resolving a code absent from the cache and from the store fails with
the 404 and performs no side effect: the returned state is the input state,
so no clicks counter moved, no analytics row was written and no task was
scheduled. -/
theorem resolve_unknown_code (s : Sys) (code country : String)
    (hc : ∀ v, (code, v) ∉ s.cache)
    (hdb : ∀ r ∈ s.db.urls, r.short_code ≠ some code) :
    redirect_to_url .healthy s code country = (.error .linkNotFound, s) := by
  have hget : List.find? (fun p => p.1 == code) s.cache = none := by
    apply List.find?_eq_none.mpr
    intro p hp hbeq
    have hpc : p.1 = code := by simpa using hbeq
    have : (code, p.2) ∈ s.cache := by rw [← hpc]; exact hp
    exact hc p.2 this
  have hfind : List.find? (fun r => r.short_code == some code) s.db.urls = none := by
    apply List.find?_eq_none.mpr
    intro r hr hbeq
    exact hdb r hr (by simpa using hbeq)
  simp [redirect_to_url, cacheGet, hget, hfind, truthy]

/-- C7 witness: resolving a code against the empty state. -/
theorem resolve_unknown_code_witness :
    redirect_to_url .healthy sys0 "doesnotexist" "US" = (.error .linkNotFound, sys0) :=
  resolve_unknown_code sys0 "doesnotexist" "US" (by simp [sys0]) (by simp [sys0])

/-- A concrete state with one stored link: the urls table maps the code abc
to https://example.com/a with zero clicks. -/
def sysEx : Sys :=
  { db := { urls := [{ id := 1, original_url := "https://example.com/a",
                       short_code := some "abc", clicks := 0 }],
            analytics := [], nextId := 2 },
    cache := [], pending := [] }

/-- C2 counterexample: with redis down the store holds the code, yet resolve
returns the cache error instead of the stored URL, and shorten with redis
down also surfaces the cache error to the caller. -/
theorem cache_failure_visible :
    redirect_to_url .down sysEx "abc" "US" = (.error .cacheError, sysEx)
    ∧ (redirect_to_url .down sysEx "abc" "US").1 ≠ .ok "https://example.com/a"
    ∧ (shorten_url .down sysEx "https://example.com/b").1 = .error .cacheError := by
  refine ⟨rfl, ?_, rfl⟩
  intro hcontra
  simp [redirect_to_url, cacheGet] at hcontra

/-- C2 amended: a redis failure is user-visible: with redis down, resolve
always fails with the cache error (there is no fallback to the store on a
cache failure, only on a cache miss), and shorten fails with the cache error
even though both database commits succeeded, leaving the row with its
attached code in the table while the caller gets the error. -/
theorem cache_failure_propagates (s : Sys) (code country u : String) :
    (redirect_to_url .down s code country).1 = .error .cacheError
    ∧ (shorten_url .down s u).1 = .error .cacheError
    ∧ (shorten_url .down s u).2.db.urls.getLast?
        = some { id := s.db.nextId, original_url := u,
                 short_code := some (base62_encode (s.db.nextId + 10000)),
                 clicks := 0 } := by
  refine ⟨rfl, rfl, ?_⟩
  rw [shorten_db]
  simp [attachCode, createPending, List.map_append, List.getLast?_concat]

/-- C3 counterexample: shortening the empty string is accepted: no
validation failure, a row is created and a code is returned. -/
theorem shorten_empty_accepted :
    (shorten_url .healthy sys0 "").1 = .ok (base62_encode 10001)
    ∧ (shorten_url .healthy sys0 "").2.db.urls ≠ [] := by
  constructor
  · simp [shorten_url, createPending, cacheSet, sys0]
  · simp [shorten_url, createPending, attachCode, cacheSet, sys0]

/-- C3 amended: shorten performs no input validation: for every state,
shortening the empty string succeeds, returns the encoding of the fresh
id + 10000, and inserts a row whose original_url is the empty string. -/
theorem shorten_no_validation (s : Sys) :
    (shorten_url .healthy s "").1 = .ok (base62_encode (s.db.nextId + 10000))
    ∧ (shorten_url .healthy s "").2.db.urls.getLast?
        = some { id := s.db.nextId, original_url := "",
                 short_code := some (base62_encode (s.db.nextId + 10000)),
                 clicks := 0 } := by
  refine ⟨rfl, ?_⟩
  rw [shorten_db]
  simp [attachCode, createPending, List.map_append, List.getLast?_concat]

/-- C4 counterexample: two simultaneous recordings for the code abc
interleave as read, read, write, write: each ORM query reads clicks = 0,
each commit writes 0 + 1, and after both deferred recordings complete the
counter is 1, not 2: the application-level read-then-write loses an
update. -/
theorem clicks_lost_update :
    sysEx.db.urls.map (·.clicks) = [0]
    ∧ (analyticsWrite
        (analyticsWrite sysEx.db "abc" (analyticsRead sysEx.db "abc") "US")
        "abc" (analyticsRead sysEx.db "abc") "DE").urls.map (·.clicks) = [1]
    ∧ (1 : Nat) ≠ 0 + 2 := by
  refine ⟨rfl, by decide, by decide⟩

theorem find_clicks_update (l : List URLItem) (code : String) (k : Nat) :
    (((l.map fun r =>
        if r.short_code == some code then { r with clicks := k + 1 } else r).find?
          (fun r => r.short_code == some code)).map (·.clicks))
      = ((l.find? fun r => r.short_code == some code).map fun _ => k + 1) := by
  induction l with
  | nil => rfl
  | cons r t ih =>
    by_cases hp : r.short_code = some code
    · simp [hp, List.find?_cons_of_pos]
    · have hb : (r.short_code == some code) = false := by
        simpa using hp
      simp only [List.map_cons, hb, Bool.false_eq_true, if_false]
      rw [List.find?_cons_of_neg _ (by simp [hb]), List.find?_cons_of_neg _ (by simp [hb])]
      exact ih

theorem analyticsRead_record (db : DB) (code country : String) (k : Nat)
    (hk : analyticsRead db code = some k) :
    analyticsRead (record_analytics db code country) code = some (k + 1) := by
  simp only [record_analytics, hk, analyticsWrite]
  simp only [analyticsRead] at hk ⊢
  rw [find_clicks_update]
  obtain ⟨r0, hr0, -⟩ := Option.map_eq_some'.mp hk
  rw [hr0]
  rfl

/-- C4 amended: the increment is an application-level read-then-write
(query, clicks plus one on the loaded object, commit), so the counter is
only guaranteed to advance by N when the N recordings do not interleave:
running record_analytics serially n times advances the clicks of the
matching row by exactly n, while interleaved recordings can lose updates. -/
theorem clicks_serial_increment (db : DB) (code country : String) (k : Nat)
    (hk : analyticsRead db code = some k) (n : Nat) :
    analyticsRead ((fun d => record_analytics d code country)^[n] db) code
      = some (k + n) := by
  induction n generalizing db k with
  | zero => simpa using hk
  | succ n ih =>
    rw [Function.iterate_succ_apply]
    have hstep := analyticsRead_record db code country k hk
    have := ih (record_analytics db code country) (k + 1) hstep
    rw [this]
    congr 1
    omega

/-- C4 witness: two serial recordings against the concrete one-row state
advance the counter from 0 to 2. -/
theorem clicks_serial_increment_witness :
    analyticsRead ((fun d => record_analytics d "abc" "US")^[2] sysEx.db) "abc"
      = some (0 + 2) :=
  clicks_serial_increment sysEx.db "abc" "US" 0 (by decide) 2

/-- C10: no degenerate codes: a number of at least 3844 = 62 * 62 encodes to
at least three symbols, and since the store assigns ids from 1 up, shorten
encodes id + 10000 with id at least 1, so every code it returns has at
least three characters. -/
theorem short_code_not_degenerate :
    (∀ n, 3844 ≤ n → 3 ≤ (base62_encode n).length)
    ∧ (∀ (cm : CacheMode) (s : Sys) (u code : String), 1 ≤ s.db.nextId →
        (shorten_url cm s u).1 = .ok code → 3 ≤ code.length) := by
  have hlen : ∀ n, 3844 ≤ n → 3 ≤ (base62_encode n).length := by
    intro n hn
    have hne : n ≠ 0 := by omega
    have hb := base62_loop_length_bound n
    have hlength : (base62_encode n).length = (base62_loop n []).length := by
      simp [base62_encode, if_neg hne, String.length]
    rw [hlength]
    by_contra hcon
    push_neg at hcon
    have hle : (base62_loop n []).length ≤ 2 := by omega
    have hpow : 62 ^ (base62_loop n []).length ≤ 62 ^ 2 :=
      Nat.pow_le_pow_right (by norm_num) hle
    have h62 : (62 : Nat) ^ 2 = 3844 := by norm_num
    omega
  refine ⟨hlen, ?_⟩
  intro cm s u code h1 hok
  cases cm
  · have hcode : code = base62_encode (s.db.nextId + 10000) := by
      simp [shorten_url, createPending, cacheSet] at hok
      exact hok.symm
    rw [hcode]
    exact hlen _ (by omega)
  · simp [shorten_url, cacheSet] at hok

/-- C10 witness: the bound at 3844 and at the first code shorten assigns. -/
theorem short_code_not_degenerate_witness :
    3 ≤ (base62_encode 3844).length ∧ 3 ≤ (base62_encode 10001).length := by
  refine ⟨short_code_not_degenerate.1 3844 (by norm_num), ?_⟩
  exact short_code_not_degenerate.2 .healthy sys0 "https://example.com/a"
    (base62_encode 10001) (by decide)
    (by simp [shorten_url, createPending, cacheSet, sys0])

/-- C1: round trip: shortening a non-empty URL and then resolving the
returned short code yields the URL back, both when the resolve is served
from the cache entry warmed by shorten and when that entry has been evicted
and the resolve falls back to the durable store. -/
theorem resolve_shorten_roundtrip (s : Sys) (u country code : String) (s2 : Sys)
    (hinv : dbInv s.db) (hu : u ≠ "")
    (hsh : shorten_url .healthy s u = (.ok code, s2)) :
    (redirect_to_url .healthy s2 code country).1 = .ok u
    ∧ (redirect_to_url .healthy { s2 with cache := [] } code country).1 = .ok u := by
  obtain ⟨h1, h2, h3, h4⟩ := hinv
  have hub : (u == "") = false := beq_eq_false_iff_ne.mpr hu
  have hcode : base62_encode (s.db.nextId + 10000) = code := by
    have hfst := congrArg Prod.fst hsh
    simpa [shorten_url, createPending, cacheSet] using hfst
  have hdb2 : s2.db
      = attachCode (createPending s.db u).2 s.db.nextId
          (base62_encode (s.db.nextId + 10000)) := by
    have hsnd : (shorten_url .healthy s u).2.db = s2.db :=
      congrArg (fun p => p.2.db) hsh
    rw [shorten_db] at hsnd
    exact hsnd.symm
  have hcache2 : s2.cache
      = (code, u) :: s.cache.filter fun p => !(p.1 == code) := by
    have hsnd : (shorten_url .healthy s u).2.cache = s2.cache :=
      congrArg (fun p => p.2.cache) hsh
    simp only [shorten_url, createPending, cacheSet] at hsnd
    rw [hcode] at hsnd
    exact hsnd.symm
  have hurls : s2.db.urls
      = s.db.urls ++ [{ id := s.db.nextId, original_url := u,
                        short_code := some code, clicks := 0 }] := by
    rw [hdb2, attach_create_urls s.db u (fun r hr => (h2 r hr).2), hcode]
  constructor
  · have hget : cacheGet .healthy s2.cache code = .ok (some u) := by
      rw [hcache2]
      simp [cacheGet]
    simp [redirect_to_url, hget, truthy, hub]
  · have hfind : s2.db.urls.find? (fun r => r.short_code == some code)
        = some { id := s.db.nextId, original_url := u,
                 short_code := some code, clicks := 0 } := by
      rw [hurls, List.find?_append]
      have hpre : s.db.urls.find? (fun r => r.short_code == some code) = none := by
        apply List.find?_eq_none.mpr
        intro r hr hbeq
        have hc : r.short_code = some code := by simpa using hbeq
        have hder := h4 r hr code hc
        have hlt := (h2 r hr).2
        refine absurd ?_
          (base62_encode_ne_of_ne (r.id + 10000) (s.db.nextId + 10000) (by omega))
        rw [← hder, hcode]
      rw [hpre]
      simp [List.find?]
    simp [redirect_to_url, cacheGet, truthy, hfind, cacheSet]

/-- C1 witness: the round trip on the initial state with a concrete URL. -/
theorem resolve_shorten_roundtrip_witness :
    (redirect_to_url .healthy (shorten_url .healthy sys0 "https://example.com/a").2
        (base62_encode 10001) "US").1 = .ok "https://example.com/a" := by
  have hsh : shorten_url .healthy sys0 "https://example.com/a"
      = (.ok (base62_encode 10001),
         (shorten_url .healthy sys0 "https://example.com/a").2) := by
    refine Prod.ext_iff.mpr ⟨?_, rfl⟩
    simp [shorten_url, createPending, cacheSet, sys0]
  exact (resolve_shorten_roundtrip sys0 "https://example.com/a" "US"
    (base62_encode 10001) (shorten_url .healthy sys0 "https://example.com/a").2
    dbInv_sys0 (by decide) hsh).1
